import Mathlib

/-!
Verification of the RSS/Atom aggregation pipeline in
`scripts/aggregate_rss.js` against its natural-language specification.

JavaScript strings are modelled as `List Char`; every string-processing
function of the script is translated into an executable Lean definition.
The platform built-ins `Date.parse` / `Date.prototype.toISOString` and
`new URL(u).hostname` are not part of the repository's code, so they are
taken as parameters of the model (see `DateModel` below).
-/

/-- A JavaScript string, modelled as its list of characters. -/
abbrev Str := List Char

/-- Characters of a Lean string literal. -/
def cs (s : String) : Str := s.data

/-- Modelled from the spec: simple case mapping of
`String.prototype.toLowerCase`, restricted to ASCII, the Latin-1
uppercase range and the Latin-Extended-A letters used by the keyword
lists (Czech diacritics).  The mapping is per-character. -/
def jsToLower (c : Char) : Char :=
  let v := c.toNat
  if 65 ≤ v ∧ v ≤ 90 then Char.ofNat (v + 32)
  else if 192 ≤ v ∧ v ≤ 222 ∧ v ≠ 215 then Char.ofNat (v + 32)
  else if v = 0x10C ∨ v = 0x10E ∨ v = 0x11A ∨ v = 0x147 ∨ v = 0x158 ∨
          v = 0x160 ∨ v = 0x164 ∨ v = 0x16E ∨ v = 0x17D then Char.ofNat (v + 1)
  else c

/-- `text.toLowerCase()` on the string model. -/
def lowerStr (s : Str) : Str := s.map jsToLower

/-- `hay.includes(needle)` — substring containment, as in
`String.prototype.includes`. -/
def containsSub (hay needle : Str) : Bool :=
  hay.tails.any (fun t => needle.isPrefixOf t)

theorem containsSub_iff (hay needle : Str) :
    containsSub hay needle = true ↔ needle <:+: hay := by
  simp only [containsSub, List.any_eq_true, List.mem_tails,
    List.isPrefixOf_iff_prefix, List.infix_iff_prefix_suffix]
  constructor
  · rintro ⟨t, hs, hp⟩; exact ⟨t, hp, hs⟩
  · rintro ⟨t, hp, hs⟩; exact ⟨t, hs, hp⟩

/-- `BRAND_KEYWORDS` from `aggregate_rss.js`. -/
def BRAND_KEYWORDS : List Str :=
  [cs "temu", cs "shein", cs "aliexpress", cs "ali express", cs "alibaba",
   cs "wish"]

/-- `CONTEXT_KEYWORDS` from `aggregate_rss.js`. -/
def CONTEXT_KEYWORDS : List Str :=
  [cs "marketplace", cs "online marketplace", cs "e-shop", cs "eshop",
   cs "online shop", cs "online shopping", cs "ultra-fast fashion",
   cs "fast fashion"]

/-- `TOPIC_KEYWORDS` from `aggregate_rss.js`. -/
def TOPIC_KEYWORDS : List Str :=
  [cs "padělek", cs "padělky", cs "counterfeit", cs "product safety",
   cs "unsafe", cs "bezpečnost výrobků", cs "nebezpečný výrobek",
   cs "consumer protection", cs "ochrana spotřebitele", cs "toxic",
   cs "toxický", cs "hazardous", cs "recall", cs "stahování z trhu"]

/-- `matchesKeywords(text)` from `aggregate_rss.js`: brand tier
short-circuits; otherwise topic AND context must both match.  The code
lowercases the text once, and lowercases each topic keyword before the
containment test. -/
def matchesKeywords (text : Str) : Bool :=
  let t := lowerStr text
  let brandMatch := BRAND_KEYWORDS.any (fun k => containsSub t k)
  if brandMatch then true
  else
    let contextMatch := CONTEXT_KEYWORDS.any (fun k => containsSub t k)
    let topicMatch := TOPIC_KEYWORDS.any (fun k => containsSub t (lowerStr k))
    topicMatch && contextMatch

/-- `s.replace(/^<!\[CDATA\[/, "").replace(/\]\]>$/, "")` — drop one
leading CDATA open marker and one trailing close marker. -/
def stripCdata (s : Str) : Str :=
  let s1 := if (cs "<![CDATA[").isPrefixOf s then s.drop 9 else s
  if (cs "]]>").isSuffixOf s1 then s1.take (s1.length - 3) else s1

/-- Drop `ps.length` characters, structurally on `ps`. -/
def dropMatched : Str → Str → Str
  | [], r => r
  | _ :: _, [] => []
  | _ :: ps, _ :: r => dropMatched ps r

/-- Global literal replacement as in `s.replace(/pat/g, rep)`: scan left
to right, replace each non-overlapping occurrence, never rescan the
replacement.  Fuel-driven so that the kernel can evaluate it; fuel
`s.length` always suffices because every step consumes at least one
character. -/
def replaceAllGo (pat rep : Str) : Nat → Str → Str
  | _, [] => []
  | 0, s => s
  | Nat.succ fuel, c :: r =>
    if pat ≠ [] ∧ pat.isPrefixOf (c :: r) then
      rep ++ replaceAllGo pat rep fuel (dropMatched pat (c :: r))
    else c :: replaceAllGo pat rep fuel r

/-- `s.replace(/pat/g, rep)` for a literal pattern. -/
def replaceAll (pat rep s : Str) : Str := replaceAllGo pat rep s.length s

/-- `decodeEntities(s)` from `aggregate_rss.js`: seven sequential global
replacements, in source order. -/
def decodeEntities (s : Str) : Str :=
  let s1 := replaceAll (cs "&amp;") (cs "&") s
  let s2 := replaceAll (cs "&lt;") (cs "<") s1
  let s3 := replaceAll (cs "&gt;") (cs ">") s2
  let s4 := replaceAll (cs "&quot;") (cs "\"") s3
  let s5 := replaceAll (cs "&#39;") (cs "'") s4
  let s6 := replaceAll (cs "&#x27;") (cs "'") s5
  replaceAll (cs "&#x2F;") (cs "/") s6

/-- State machine for `s.replace(/<[^>]*>/g, " ")`.  The first argument
holds, while inside an unclosed `<…`, the characters read since the `<`
(reversed); if the input ends without a closing `>`, that tail is
emitted literally, mirroring the regex finding no further match. -/
def stripTagsGo : Option Str → Str → Str
  | none, [] => []
  | some acc, [] => '<' :: acc.reverse
  | none, c :: r => if c = '<' then stripTagsGo (some []) r else c :: stripTagsGo none r
  | some acc, c :: r =>
    if c = '>' then ' ' :: stripTagsGo none r else stripTagsGo (some (c :: acc)) r

/-- `stripTags(s)` from `aggregate_rss.js`. -/
def stripTags (s : Str) : Str := stripTagsGo none s

/-- Modelled from the spec: the JavaScript `\s` / trim whitespace set
(space, tab, line terminators, NBSP, Unicode space separators, BOM). -/
def isJsWs (c : Char) : Bool :=
  let v := c.toNat
  decide (v = 32 ∨ v = 9 ∨ v = 10 ∨ v = 11 ∨ v = 12 ∨ v = 13 ∨ v = 160 ∨
    v = 0x1680 ∨ (0x2000 ≤ v ∧ v ≤ 0x200A) ∨ v = 0x2028 ∨ v = 0x2029 ∨
    v = 0x202F ∨ v = 0x205F ∨ v = 0x3000 ∨ v = 0xFEFF)

/-- State machine for `s.replace(/\s+/g, " ")`: each maximal run of
whitespace becomes a single space.  The flag records whether the
previous input character was part of a run already replaced. -/
def collapseGo : Bool → Str → Str
  | _, [] => []
  | prevWs, c :: r =>
    if isJsWs c then
      if prevWs then collapseGo true r else ' ' :: collapseGo true r
    else c :: collapseGo false r

/-- `s.replace(/\s+/g, " ")`. -/
def collapseWs (s : Str) : Str := collapseGo false s

/-- Remove the longest whitespace suffix (helper for `trim`). -/
def dropWhileEnd (p : Char → Bool) : Str → Str
  | [] => []
  | c :: r =>
    let r' := dropWhileEnd p r
    if r' = [] ∧ p c then [] else c :: r'

/-- `s.trim()`. -/
def jsTrim (s : Str) : Str := dropWhileEnd isJsWs (s.dropWhile isJsWs)

/-- `normalizeText(s)` from `aggregate_rss.js`:
`stripTags(decodeEntities(stripCdata(String(s || "")))).replace(/\s+/g, " ").trim()`. -/
def normalizeText (s : Str) : Str :=
  jsTrim (collapseWs (stripTags (decodeEntities (stripCdata s))))

example : normalizeText (cs " <b>a&amp;b</b>  c ") = cs "a&b c" := by decide
example : normalizeText (cs "&amp;amp;") = cs "&amp;" := by decide
example : normalizeText (cs "&amp;") = cs "&" := by decide

/-- `safeUrl`'s regex test `/^https?:\/\//i`. -/
def isHttpUrl (s : Str) : Bool :=
  (cs "http://").isPrefixOf (lowerStr s) || (cs "https://").isPrefixOf (lowerStr s)

/-- `safeUrl(u)` from `aggregate_rss.js`: empty input stays empty, the
input is trimmed, and anything not starting with `http://` or
`https://` (case-insensitively) becomes the empty string. -/
def safeUrl (u : Str) : Str :=
  if u = [] then []
  else
    let s := jsTrim u
    if isHttpUrl s then s else []

/-- Modelled from the spec: the JavaScript `Date` built-ins used by the
script — `new Date(raw).getTime()` (`none` models `NaN`, i.e. an
unparseable string; a parsed value is the millisecond timestamp) and
`Date.prototype.toISOString`.  These are platform functions, not code of
the repository, so they are parameters of the model. -/
structure DateModel where
  parse : Str → Option Int
  toIso : Int → Str

/-- `parseDateToIso(raw)` from `aggregate_rss.js`: empty or unparseable
input yields the empty string, otherwise the ISO form of the parsed
instant. -/
def parseDateToIso (D : DateModel) (raw : Str) : Str :=
  if raw = [] then []
  else
    match D.parse raw with
    | none => []
    | some t => D.toIso t

/-- The record built per feed entry by `parseRssItems` /
`parseAtomEntries`: `{ title, source, url, publishedAt, _search }`. -/
structure RawItem where
  title : Str
  source : Str
  url : Str
  publishedAt : Str
  search : Str
deriving DecidableEq

/-- The persisted record `{ title, source, url, publishedAt }` pushed by
`normalizeAndFilter`. -/
structure Item where
  title : Str
  source : Str
  url : Str
  publishedAt : Str
deriving DecidableEq

/-- The filter argument `x._search || x.title || ""`. -/
def searchTextOf (x : RawItem) : Str :=
  if x.search ≠ [] then x.search else if x.title ≠ [] then x.title else []

/-- The two `.filter` passes of `normalizeAndFilter`: keep entries with
a truthy `url` and `title`, then keep keyword matches. -/
def filteredPool (items : List RawItem) : List RawItem :=
  (items.filter (fun x => decide (x.url ≠ [] ∧ x.title ≠ []))).filter
    (fun x => matchesKeywords (searchTextOf x))

/-- The object pushed by the dedup loop:
`{ title, source, url, publishedAt: x.publishedAt || new Date().toISOString() }`.
`nowIso` models the run's current instant rendered by `toISOString`. -/
def mkItem (nowIso : Str) (x : RawItem) : Item :=
  ⟨x.title, x.source, x.url, if x.publishedAt ≠ [] then x.publishedAt else nowIso⟩

/-- The dedup loop of `normalizeAndFilter`: the `seen` set keyed by
`x.url`; the first occurrence of each URL is pushed, later ones are
skipped. -/
def dedupByUrl (nowIso : Str) : List Str → List RawItem → List Item
  | _, [] => []
  | seen, x :: rest =>
    if x.url ∈ seen then dedupByUrl nowIso seen rest
    else mkItem nowIso x :: dedupByUrl nowIso (x.url :: seen) rest

/-- The comparator key `Date.parse(a.publishedAt || "")` with the
`Number.isNaN` fallback to `0`. -/
def sortKey (P : Str → Option Int) (a : Item) : Int := (P a.publishedAt).getD 0

/-- The sort comparator `(a, b) => tb - ta` as a Boolean "a may come
before b" relation: descending by `sortKey`. -/
def itemLe (P : Str → Option Int) (a b : Item) : Bool :=
  decide (sortKey P b ≤ sortKey P a)

/-- `MAX_ITEMS_PER_BUCKET` from `aggregate_rss.js`. -/
def MAX_ITEMS_PER_BUCKET : Nat := 80

/-- `normalizeAndFilter` up to (and including) the sort; JavaScript's
`Array.prototype.sort` is stable, as is `List.mergeSort`. -/
def sortedDedup (P : Str → Option Int) (nowIso : Str) (items : List RawItem) :
    List Item :=
  (dedupByUrl nowIso [] (filteredPool items)).mergeSort (itemLe P)

/-- `normalizeAndFilter(items)` from `aggregate_rss.js`: filter, dedup
by URL, sort by resolved timestamp descending, cap at
`MAX_ITEMS_PER_BUCKET`. -/
def normalizeAndFilter (P : Str → Option Int) (nowIso : Str)
    (items : List RawItem) : List Item :=
  (sortedDedup P nowIso items).take MAX_ITEMS_PER_BUCKET

/-- Case-insensitive prefix test (the `/i` flag on literal patterns). -/
def isPrefixCI (p s : Str) : Bool := (lowerStr p).isPrefixOf (lowerStr s)

/-- JavaScript `\w`: ASCII letters, digits and underscore. -/
def isWordChar (c : Char) : Bool := c.isAlphanum || c = '_'

/-- Does `s` start with `<tag` followed by a word boundary (`\b`)? -/
def tagOpenAt (tag s : Str) : Bool :=
  isPrefixCI ('<' :: tag) s &&
    (match s.drop (tag.length + 1) with
     | [] => true
     | c :: _ => !isWordChar c)

/-- The suffix of the input starting at the first `<tag\b`. -/
def findTagOpen (tag : Str) : Str → Option Str
  | [] => none
  | c :: r => if tagOpenAt tag (c :: r) then some (c :: r) else findTagOpen tag r

/-- Split at the first case-insensitive occurrence of `pat`: returns
the consumed portion (up to and including the match) and the rest. -/
def splitAfterCI (pat : Str) : Str → Option (Str × Str)
  | [] => none
  | c :: r =>
    if isPrefixCI pat (c :: r) then some ((c :: r).take pat.length, (c :: r).drop pat.length)
    else
      match splitAfterCI pat r with
      | none => none
      | some (a, b) => some (c :: a, b)

/-- The portion before the first case-insensitive occurrence of `pat`. -/
def splitBeforeCI (pat : Str) : Str → Option Str
  | [] => none
  | c :: r =>
    if isPrefixCI pat (c :: r) then some []
    else
      match splitBeforeCI pat r with
      | none => none
      | some a => some (c :: a)

/-- The lazy capture of `/op([\s\S]*?)cl/i`: the text between the first
occurrence of `op` and the first following `cl`; the empty string when
either is missing (which `firstMatch` treats as no match, because an
empty capture group is falsy). -/
def findBetweenCI (op cl s : Str) : Str :=
  match splitAfterCI op s with
  | none => []
  | some (_, rest) =>
    match splitBeforeCI cl rest with
    | none => []
    | some mid => mid

/-- The capture of `/<name[^>]*>([\s\S]*?)cl/i`: skip the first `<name`,
then everything up to the first `>`, then capture lazily up to `cl`. -/
def findBetweenAttrCI (name cl s : Str) : Str :=
  match splitAfterCI ('<' :: name) s with
  | none => []
  | some (_, rest) =>
    match splitAfterCI (cs ">") rest with
    | none => []
    | some (_, rest2) =>
      match splitBeforeCI cl rest2 with
      | none => []
      | some mid => mid

/-- `firstMatch(xml, patterns)` from `aggregate_rss.js`, with each regex
already turned into an extraction function: return the first non-empty
captured group, or the empty string. -/
def firstMatch (fs : List (Str → Str)) (s : Str) : Str :=
  match fs with
  | [] => []
  | f :: rest =>
    let r := f s
    if r ≠ [] then r else firstMatch rest s

/-- `extractAllBlocks(xml, tag)` — the global matches of
`/<tag\b[\s\S]*?<\/tag>/gi`: from each `<tag\b` to the nearest
following `</tag>`, resuming after it.  Fuel-driven (fuel `s.length`
suffices: every step consumes at least the opening `<`). -/
def extractBlocksGo (tag : Str) : Nat → Str → List Str
  | 0, _ => []
  | Nat.succ fuel, s =>
    match findTagOpen tag s with
    | none => []
    | some suf =>
      match splitAfterCI ('<' :: '/' :: (tag ++ cs ">")) (suf.drop (tag.length + 1)) with
      | none => []
      | some (mid, rest) =>
        (suf.take (tag.length + 1) ++ mid) :: extractBlocksGo tag fuel rest

/-- `extractAllBlocks(xml, tag)` from `aggregate_rss.js`. -/
def extractAllBlocks (tag s : Str) : List Str := extractBlocksGo tag s.length s

/-- Quote delimiters recognised by the link regexes (`["']`). -/
def quoteDelim (c : Char) : Bool := c = '"' || c = '\''

/-- The portion before the first character satisfying `p`. -/
def splitBeforeChar (p : Char → Bool) : Str → Option Str
  | [] => none
  | c :: r =>
    if p c then some []
    else
      match splitBeforeChar p r with
      | none => none
      | some a => some (c :: a)

/-- The capture `\bhref=["']([^"']+)["']`: find `href=`, require a
quote, capture the non-empty run up to the next quote. -/
def hrefIn (region : Str) : Str :=
  match splitAfterCI (cs "href=") region with
  | none => []
  | some (_, rest) =>
    match rest with
    | [] => []
    | c :: r =>
      if quoteDelim c then
        match splitBeforeChar quoteDelim r with
        | none => []
        | some cap => cap
      else []

/-- The `<link …>` tag regions of an Atom entry block: from each
`<link\b` up to the first `>` (the whole remaining text when no `>`
follows).  Fuel-driven like `extractBlocksGo`. -/
def linkRegionsGo : Nat → Str → List Str
  | 0, _ => []
  | Nat.succ fuel, s =>
    match findTagOpen (cs "link") s with
    | none => []
    | some suf =>
      (match splitBeforeCI (cs ">") suf with
       | none => suf
       | some region => region) :: linkRegionsGo fuel (suf.drop 1)

/-- All `<link\b` regions of a block. -/
def linkRegions (s : Str) : List Str := linkRegionsGo s.length s

/-- Pattern `\brel=["']alternate["'][^>]*\bhref=["']([^"']+)["']` inside
one link region: the `href` capture found after a `rel=alternate`
attribute. -/
def relAlternateHref (region : Str) : Str :=
  match splitAfterCI (cs "rel=\"alternate\"") region with
  | some (_, rest) => hrefIn rest
  | none =>
    match splitAfterCI (cs "rel='alternate'") region with
    | some (_, rest) => hrefIn rest
    | none => []

/-- First region on which `f` yields a non-empty capture. -/
def firstNonempty (f : Str → Str) : List Str → Str
  | [] => []
  | r :: rest =>
    let v := f r
    if v ≠ [] then v else firstNonempty f rest

/-- The raw href of an Atom entry, modelling the two link regexes of
`parseAtomEntries`: prefer a `<link … rel="alternate" … href="…">`,
fall back to any `<link … href="…">`.  (The regex engine's backtracking
order inside a single tag is approximated by first-occurrence search;
the tag-selection and fallback order follow the source.) -/
def atomHrefRaw (block : Str) : Str :=
  let regions := linkRegions block
  let r1 := firstNonempty relAlternateHref regions
  if r1 ≠ [] then r1 else firstNonempty hrefIn regions

/-- Capture of `/<channel[\s\S]*?<title>([\s\S]*?)<\/title>/i`. -/
def channelTitle (xml : Str) : Str :=
  match splitAfterCI (cs "<channel") xml with
  | none => []
  | some (_, rest) => findBetweenCI (cs "<title>") (cs "</title>") rest

/-- Capture of `/<feed[\s\S]*?<title[^>]*>([\s\S]*?)<\/title>/i`. -/
def feedTitle (xml : Str) : Str :=
  match splitAfterCI (cs "<feed") xml with
  | none => []
  | some (_, rest) => findBetweenAttrCI (cs "title") (cs "</title>") rest

/-- `guessSourceName(feedXml, feedUrl)` from `aggregate_rss.js`.  `H`
models the platform's `new URL(u).hostname` (`none` models the
constructor throwing); on failure the sentinel `"Neznámý zdroj"`. -/
def guessSourceName (H : Str → Option Str) (feedXml feedUrl : Str) : Str :=
  let titleRaw := firstMatch [channelTitle, feedTitle] feedXml
  let title := normalizeText titleRaw
  if title ≠ [] then title
  else
    match H feedUrl with
    | some host => if (cs "www.").isPrefixOf host then host.drop 4 else host
    | none => cs "Neznámý zdroj"

/-- `parseRssItems(feedXml, feedUrl)` from `aggregate_rss.js`: one
`RawItem` per `<item>` block. -/
def parseRssItems (D : DateModel) (H : Str → Option Str)
    (feedXml feedUrl : Str) : List RawItem :=
  let sourceName := guessSourceName H feedXml feedUrl
  (extractAllBlocks (cs "item") feedXml).map (fun block =>
    let title := normalizeText (firstMatch
      [findBetweenCI (cs "<title>") (cs "</title>")] block)
    let linkRaw := normalizeText (firstMatch
      [findBetweenCI (cs "<link>") (cs "</link>")] block)
    let link := safeUrl linkRaw
    let pubDate := normalizeText (firstMatch
      [findBetweenCI (cs "<pubDate>") (cs "</pubDate>"),
       findBetweenCI (cs "<dc:date>") (cs "</dc:date>")] block)
    let desc := normalizeText (firstMatch
      [findBetweenCI (cs "<description>") (cs "</description>"),
       findBetweenCI (cs "<content:encoded>") (cs "</content:encoded>")] block)
    { title := title, source := sourceName, url := link,
      publishedAt := parseDateToIso D pubDate,
      search := jsTrim (title ++ cs " " ++ desc) })

/-- `parseAtomEntries(feedXml, feedUrl)` from `aggregate_rss.js`: one
`RawItem` per `<entry>` block. -/
def parseAtomEntries (D : DateModel) (H : Str → Option Str)
    (feedXml feedUrl : Str) : List RawItem :=
  let sourceName := guessSourceName H feedXml feedUrl
  (extractAllBlocks (cs "entry") feedXml).map (fun block =>
    let title := normalizeText (firstMatch
      [findBetweenAttrCI (cs "title") (cs "</title>")] block)
    let hrefRaw := atomHrefRaw block
    let href := safeUrl hrefRaw
    let published := normalizeText (firstMatch
      [findBetweenCI (cs "<published>") (cs "</published>"),
       findBetweenCI (cs "<updated>") (cs "</updated>")] block)
    let summary := normalizeText (firstMatch
      [findBetweenAttrCI (cs "summary") (cs "</summary>"),
       findBetweenAttrCI (cs "content") (cs "</content>")] block)
    { title := title, source := sourceName, url := href,
      publishedAt := parseDateToIso D published,
      search := jsTrim (title ++ cs " " ++ summary) })

/-- The test `/<tag\b/i.test(xml)`. -/
def hasTagOpen (tag s : Str) : Bool := (findTagOpen tag s).isSome

/-- `parseFeed(feedXml, feedUrl)` from `aggregate_rss.js`: RSS wins when
an `<rss` or `<channel` marker is present; else Atom when both `<feed`
and `<entry` are present; else both extractions are attempted and the
longer result wins, ties favouring RSS (`rss.length >= atom.length`). -/
def parseFeed (D : DateModel) (H : Str → Option Str)
    (feedXml feedUrl : Str) : List RawItem :=
  let hasRss := hasTagOpen (cs "rss") feedXml || hasTagOpen (cs "channel") feedXml
  let hasAtom := hasTagOpen (cs "feed") feedXml && hasTagOpen (cs "entry") feedXml
  if hasRss then parseRssItems D H feedXml feedUrl
  else if hasAtom then parseAtomEntries D H feedXml feedUrl
  else
    let rss := parseRssItems D H feedXml feedUrl
    let atom := parseAtomEntries D H feedXml feedUrl
    if atom.length ≤ rss.length then rss else atom

/-- One entry of a bucket's feed list in `sources.json`: either a bare
URL string, or an object; the object's fields relevant to
`aggregateBucket` are `rss`, `url` and `topic` (each possibly absent). -/
inductive FeedEntry where
  | strE (s : Str)
  | objE (rss : Option Str) (url : Option Str) (topic : Option Str)
deriving DecidableEq

/-- The URL resolution of `aggregateBucket`:
`typeof item === "string" ? item : item?.rss`, followed by the
`if (!url)` truthiness check (an empty string is falsy). -/
def resolveFeedUrl : FeedEntry → Option Str
  | .strE s => if s = [] then none else some s
  | .objE rss _ _ =>
    match rss with
    | none => none
    | some s => if s = [] then none else some s

/-- The candidate pool built by `aggregateBucket`'s loop: per entry,
resolve the URL (skipping entries without one), fetch (a `none` from
`fetch` models a thrown `FetchError` — non-2xx, network error or
timeout — which the `catch` turns into skipping that source), parse,
and concatenate in source-list order. -/
def bucketPool (D : DateModel) (H : Str → Option Str)
    (fetch : Str → Option Str) : List FeedEntry → List RawItem
  | [] => []
  | e :: rest =>
    match resolveFeedUrl e with
    | none => bucketPool D H fetch rest
    | some u =>
      (match fetch u with
       | none => []
       | some xml => parseFeed D H xml u) ++ bucketPool D H fetch rest

/-- `aggregateBucket(feedUrls, bucketName)` from `aggregate_rss.js`
(logging dropped): pool all sources, then `normalizeAndFilter`. -/
def aggregateBucket (D : DateModel) (H : Str → Option Str)
    (fetch : Str → Option Str) (nowIso : Str) (feeds : List FeedEntry) :
    List Item :=
  normalizeAndFilter D.parse nowIso (bucketPool D H fetch feeds)

/-! ### Relevance filter (claims C4, C10) -/

theorem matchesKeywords_eq (t : Str) :
    matchesKeywords t =
      (BRAND_KEYWORDS.any (fun k => containsSub (lowerStr t) k) ||
        (TOPIC_KEYWORDS.any (fun k => containsSub (lowerStr t) (lowerStr k)) &&
         CONTEXT_KEYWORDS.any (fun k => containsSub (lowerStr t) k))) := by
  unfold matchesKeywords
  cases h : BRAND_KEYWORDS.any (fun k => containsSub (lowerStr t) k) <;> simp [h]

/-- C4: the relevance filter accepts a text exactly when it
case-insensitively contains a brand-tier keyword, or both a topic-tier
and a context-tier keyword; in particular a context-only text
("marketplace") is excluded, a topic+context text
("counterfeit marketplace") is included, and a brand-only text ("temu")
is included. -/
theorem c4_relevance_rule :
    (∀ t : Str,
      matchesKeywords t = true ↔
        ((∃ k ∈ BRAND_KEYWORDS, k <:+: lowerStr t) ∨
          ((∃ k ∈ TOPIC_KEYWORDS, lowerStr k <:+: lowerStr t) ∧
           (∃ k ∈ CONTEXT_KEYWORDS, k <:+: lowerStr t)))) ∧
    matchesKeywords (cs "marketplace") = false ∧
    matchesKeywords (cs "counterfeit marketplace") = true ∧
    matchesKeywords (cs "temu") = true := by
  refine ⟨fun t => ?_, by decide, by decide, by decide⟩
  rw [matchesKeywords_eq]
  simp only [Bool.or_eq_true, Bool.and_eq_true, List.any_eq_true, containsSub_iff]

theorem containsSub_append_of (u w v n : Str) (h : containsSub v n = true) :
    containsSub (u ++ v ++ w) n = true := by
  rw [containsSub_iff] at h ⊢
  exact h.trans (List.infix_append u v w)

/-- C10: the relevance filter is monotone under superstring embedding —
surrounding a relevant text with additional text never makes it
irrelevant. -/
theorem c10_matches_monotone (u v w : Str) (h : matchesKeywords v = true) :
    matchesKeywords (u ++ v ++ w) = true := by
  rw [matchesKeywords_eq] at h ⊢
  have hl : lowerStr (u ++ v ++ w) = lowerStr u ++ lowerStr v ++ lowerStr w := by
    simp [lowerStr]
  rw [hl]
  simp only [Bool.or_eq_true, Bool.and_eq_true, List.any_eq_true] at h ⊢
  rcases h with ⟨k, hk, hc⟩ | ⟨⟨k1, hk1, hc1⟩, ⟨k2, hk2, hc2⟩⟩
  · exact Or.inl ⟨k, hk, containsSub_append_of _ _ _ _ hc⟩
  · exact Or.inr ⟨⟨k1, hk1, containsSub_append_of _ _ _ _ hc1⟩,
      ⟨k2, hk2, containsSub_append_of _ _ _ _ hc2⟩⟩

/-- Witness for C10 at a concrete embedding. -/
theorem c10_matches_monotone_witness :
    matchesKeywords (cs "x" ++ cs "temu shop" ++ cs "!") = true :=
  c10_matches_monotone (cs "x") (cs "temu shop") (cs "!") (by decide)

/-! ### Normalizer idempotence (claim C5) -/

theorem replaceAllGo_id (p : Char) (ps rep : Str) (fuel : Nat) :
    ∀ (s : Str), p ∉ s → replaceAllGo (p :: ps) rep fuel s = s := by
  induction fuel with
  | zero => intro s _; cases s <;> rfl
  | succ n ih =>
    intro s hmem
    cases s with
    | nil => rfl
    | cons c r =>
      have hne : ¬(p :: ps).isPrefixOf (c :: r) = true := by
        intro hp
        rw [ List.isPrefixOf_iff_prefix, List.cons_prefix_cons] at hp
        exact hmem (by rw [hp.1]; exact List.mem_cons_self c r)
      simp only [replaceAllGo]
      rw [if_neg (fun hcond => hne hcond.2)]
      rw [ih r (fun h => hmem (List.mem_cons_of_mem _ h))]

theorem replaceAll_id (p : Char) (ps rep : Str) {s : Str} (h : p ∉ s) :
    replaceAll (p :: ps) rep s = s :=
  replaceAllGo_id p ps rep s.length s h

theorem decodeEntities_id (s : Str) (h : '&' ∉ s) : decodeEntities s = s := by
  have r1 : replaceAll (cs "&amp;") (cs "&") s = s := replaceAll_id '&' (cs "amp;") _ h
  have r2 : replaceAll (cs "&lt;") (cs "<") s = s := replaceAll_id '&' (cs "lt;") _ h
  have r3 : replaceAll (cs "&gt;") (cs ">") s = s := replaceAll_id '&' (cs "gt;") _ h
  have r4 : replaceAll (cs "&quot;") (cs "\"") s = s :=
    replaceAll_id '&' (cs "quot;") _ h
  have r5 : replaceAll (cs "&#39;") (cs "'") s = s :=
    replaceAll_id '&' (cs "#39;") _ h
  have r6 : replaceAll (cs "&#x27;") (cs "'") s = s :=
    replaceAll_id '&' (cs "#x27;") _ h
  have r7 : replaceAll (cs "&#x2F;") (cs "/") s = s :=
    replaceAll_id '&' (cs "#x2F;") _ h
  simp only [decodeEntities]
  rw [r1, r2, r3, r4, r5, r6, r7]

theorem stripTagsGo_id (s : Str) (h : '<' ∉ s) : stripTagsGo none s = s := by
  induction s with
  | nil => rfl
  | cons c r ih =>
    have hc : ¬c = '<' := fun e => h (by rw [e]; exact List.mem_cons_self _ _)
    simp only [stripTagsGo]
    rw [if_neg hc, ih (fun hm => h (List.mem_cons_of_mem _ hm))]

theorem stripTags_id (s : Str) (h : '<' ∉ s) : stripTags s = s := stripTagsGo_id s h

theorem stripCdata_id (s : Str) (h2 : '<' ∉ s) (h3 : '>' ∉ s) : stripCdata s = s := by
  have hpre : ¬(cs "<![CDATA[").isPrefixOf s = true := by
    intro hp
    rw [ List.isPrefixOf_iff_prefix] at hp
    exact h2 (List.Sublist.mem (by decide) hp.sublist)
  have hsuf : ¬(cs "]]>").isSuffixOf s = true := by
    intro hp
    rw [List.isSuffixOf_iff_suffix] at hp
    exact h3 (List.Sublist.mem (by decide) hp.sublist)
  unfold stripCdata
  simp only [if_neg hpre]
  simp only [if_neg hsuf]

theorem mem_collapseGo (c' : Char) :
    ∀ (b : Bool) (s : Str), c' ∈ collapseGo b s →
      c' = ' ' ∨ (c' ∈ s ∧ isJsWs c' = false) := by
  intro b s
  induction s generalizing b with
  | nil => intro h; cases h
  | cons c r ih =>
    intro h
    by_cases hws : isJsWs c = true
    · cases b with
      | true =>
        rw [show collapseGo true (c :: r) = collapseGo true r by
          simp [collapseGo, hws]] at h
        rcases ih true h with h' | ⟨hm, hf⟩
        · exact Or.inl h'
        · exact Or.inr ⟨List.mem_cons_of_mem _ hm, hf⟩
      | false =>
        rw [show collapseGo false (c :: r) = ' ' :: collapseGo true r by
          simp [collapseGo, hws]] at h
        rcases List.mem_cons.mp h with h' | h'
        · exact Or.inl h'
        · rcases ih true h' with h'' | ⟨hm, hf⟩
          · exact Or.inl h''
          · exact Or.inr ⟨List.mem_cons_of_mem _ hm, hf⟩
    · rw [show collapseGo b (c :: r) = c :: collapseGo false r by
        simp [collapseGo, hws]] at h
      rcases List.mem_cons.mp h with h' | h'
      · exact Or.inr ⟨by rw [h']; exact List.mem_cons_self _ _, by
          rw [h']; simpa using hws⟩
      · rcases ih false h' with h'' | ⟨hm, hf⟩
        · exact Or.inl h''
        · exact Or.inr ⟨List.mem_cons_of_mem _ hm, hf⟩

theorem collapseGo_true_head :
    ∀ (s : Str) (c' : Char), (collapseGo true s).head? = some c' →
      isJsWs c' = false := by
  intro s
  induction s with
  | nil => intro c' h; cases h
  | cons c r ih =>
    intro c' h
    by_cases hws : isJsWs c = true
    · rw [show collapseGo true (c :: r) = collapseGo true r by
        simp [collapseGo, hws]] at h
      exact ih c' h
    · rw [show collapseGo true (c :: r) = c :: collapseGo false r by
        simp [collapseGo, hws]] at h
      have : c = c' := by simpa using h
      rw [← this]
      simpa using hws

/-- The no-two-adjacent-whitespace invariant maintained by the collapse
step. -/
def wsR (a b : Char) : Prop := isJsWs a = true → isJsWs b = false

theorem chain_collapseGo : ∀ (b : Bool) (s : Str), List.Chain' wsR (collapseGo b s) := by
  intro b s
  induction s generalizing b with
  | nil => simp [collapseGo]
  | cons c r ih =>
    by_cases hws : isJsWs c = true
    · cases b with
      | true =>
        rw [show collapseGo true (c :: r) = collapseGo true r by
          simp [collapseGo, hws]]
        exact ih true
      | false =>
        rw [show collapseGo false (c :: r) = ' ' :: collapseGo true r by
          simp [collapseGo, hws]]
        rw [List.chain'_cons']
        exact ⟨fun y hy _ => collapseGo_true_head r y (Option.mem_def.mp hy),
          ih true⟩
    · rw [show collapseGo b (c :: r) = c :: collapseGo false r by
        simp [collapseGo, hws]]
      rw [List.chain'_cons']
      exact ⟨fun y _ hc => absurd hc hws, ih false⟩

theorem collapseGo_id :
    ∀ (s : Str), (∀ c ∈ s, isJsWs c = true → c = ' ') → List.Chain' wsR s →
      collapseGo false s = s ∧
        ((∀ c', s.head? = some c' → isJsWs c' = false) → collapseGo true s = s) := by
  intro s
  induction s with
  | nil => exact fun _ _ => ⟨rfl, fun _ => rfl⟩
  | cons c r ih =>
    intro hos hch
    have hos' : ∀ x ∈ r, isJsWs x = true → x = ' ' :=
      fun x hx => hos x (List.mem_cons_of_mem _ hx)
    have hch' : List.Chain' wsR r := (List.chain'_cons'.mp hch).2
    by_cases hws : isJsWs c = true
    · have hcsp : c = ' ' := hos c (List.mem_cons_self _ _) hws
      have hhead : ∀ c', r.head? = some c' → isJsWs c' = false := by
        intro c' h'
        exact (List.chain'_cons'.mp hch).1 c' (Option.mem_def.mpr h') hws
      constructor
      · rw [show collapseGo false (c :: r) = ' ' :: collapseGo true r by
          simp [collapseGo, hws]]
        rw [(ih hos' hch').2 hhead, hcsp]
      · intro hh
        exact absurd hws (by simpa using hh c rfl)
    · have heqf : collapseGo false (c :: r) = c :: collapseGo false r := by
        simp [collapseGo, hws]
      have heqt : collapseGo true (c :: r) = c :: collapseGo false r := by
        simp [collapseGo, hws]
      refine ⟨by rw [heqf, (ih hos' hch').1], fun _ => by rw [heqt, (ih hos' hch').1]⟩

theorem dropWhileEnd_isPrefix (p : Char → Bool) :
    ∀ (l : Str), dropWhileEnd p l <+: l := by
  intro l
  induction l with
  | nil => exact List.nil_prefix
  | cons c r ih =>
    simp only [dropWhileEnd]
    by_cases h : dropWhileEnd p r = [] ∧ p c = true
    · rw [if_pos h]; exact List.nil_prefix
    · rw [if_neg h]
      exact List.cons_prefix_cons.mpr ⟨rfl, ih⟩

theorem dropWhileEnd_eq_nil (p : Char → Bool) :
    ∀ (l : Str), dropWhileEnd p l = [] ↔ ∀ c ∈ l, p c = true := by
  intro l
  induction l with
  | nil => simp [dropWhileEnd]
  | cons c r ih =>
    simp only [dropWhileEnd]
    by_cases h : dropWhileEnd p r = [] ∧ p c = true
    · rw [if_pos h]
      simp only [List.mem_cons, true_iff]
      intro x hx
      rcases hx with rfl | hx
      · exact h.2
      · exact ih.mp h.1 x hx
    · rw [if_neg h]
      simp only [List.mem_cons]
      constructor
      · intro hx; cases hx
      · intro hall
        exact absurd ⟨ih.mpr (fun x hx => hall x (Or.inr hx)), hall c (Or.inl rfl)⟩ h

theorem dropWhileEnd_idem (p : Char → Bool) :
    ∀ (l : Str), dropWhileEnd p (dropWhileEnd p l) = dropWhileEnd p l := by
  intro l
  induction l with
  | nil => rfl
  | cons c r ih =>
    simp only [dropWhileEnd]
    by_cases h : dropWhileEnd p r = [] ∧ p c = true
    · rw [if_pos h]; rfl
    · rw [if_neg h]
      simp only [dropWhileEnd, ih]
      rw [if_neg h]

theorem dropWhile_idem (p : Char → Bool) :
    ∀ (l : Str), List.dropWhile p (List.dropWhile p l) = List.dropWhile p l := by
  intro l
  induction l with
  | nil => rfl
  | cons c r ih =>
    rw [List.dropWhile_cons]
    by_cases h : p c = true
    · rw [if_pos h]; exact ih
    · rw [if_neg h, List.dropWhile_cons, if_neg h]

theorem dropWhile_dropWhileEnd_comm (p : Char → Bool) :
    ∀ (l : Str), List.dropWhile p (dropWhileEnd p l) =
      dropWhileEnd p (List.dropWhile p l) := by
  intro l
  induction l with
  | nil => rfl
  | cons c r ih =>
    by_cases hc : p c = true
    · rw [List.dropWhile_cons, if_pos hc]
      simp only [dropWhileEnd]
      by_cases h0 : dropWhileEnd p r = []
      · rw [if_pos ⟨h0, hc⟩]
        have hall : ∀ x ∈ r, p x = true := (dropWhileEnd_eq_nil p r).mp h0
        rw [List.dropWhile_eq_nil_iff.mpr hall]
        rfl
      · rw [if_neg (fun hand => h0 hand.1)]
        rw [List.dropWhile_cons, if_pos hc, ih]
    · rw [List.dropWhile_cons, if_neg hc]
      simp only [dropWhileEnd]
      rw [if_neg (fun hand => hc hand.2), List.dropWhile_cons, if_neg hc]

theorem jsTrim_idem (s : Str) : jsTrim (jsTrim s) = jsTrim s := by
  unfold jsTrim
  rw [dropWhile_dropWhileEnd_comm, dropWhile_idem, dropWhileEnd_idem]

theorem mem_jsTrim (s : Str) (c : Char) (h : c ∈ jsTrim s) : c ∈ s := by
  unfold jsTrim at h
  have h1 := List.Sublist.mem h (dropWhileEnd_isPrefix isJsWs _).sublist
  exact List.Sublist.mem h1 (List.dropWhile_suffix isJsWs).sublist

theorem chain'_of_suffix {R : Char → Char → Prop} {l l' : Str}
    (h : List.Chain' R l) (hs : l' <:+ l) : List.Chain' R l' := by
  obtain ⟨t, ht⟩ := hs
  rw [← ht] at h
  exact (List.chain'_append.mp h).2.1

theorem chain'_of_isPrefix {R : Char → Char → Prop} {l l' : Str}
    (h : List.Chain' R l) (hs : l' <+: l) : List.Chain' R l' := by
  obtain ⟨t, ht⟩ := hs
  rw [← ht] at h
  exact (List.chain'_append.mp h).1

/-- C5 counterexample: the normalizer is not idempotent — a doubly
escaped ampersand (`&amp;amp;`) decodes one step further on the second
pass, so `normalize(normalize(t)) ≠ normalize(t)` at `t = "&amp;amp;"`. -/
theorem c5_counterexample :
    normalizeText (normalizeText (cs "&amp;amp;")) ≠
      normalizeText (cs "&amp;amp;") := by decide

/-- C5 (amended): the normalizer is idempotent on every string that
contains none of the markup metacharacters `&`, `<`, `>`.  (Each
exclusion is forced: `&` by re-decoding of escaped entities such as
`&amp;amp;`, `<` by re-stripping of a CDATA open marker surviving the
first pass, `>` by re-stripping of a trailing `]]>`.) -/
theorem c5_normalize_idempotent_on_clean (s : Str)
    (h1 : '&' ∉ s) (h2 : '<' ∉ s) (h3 : '>' ∉ s) :
    normalizeText (normalizeText s) = normalizeText s := by
  have norm_clean : ∀ t : Str, '&' ∉ t → '<' ∉ t → '>' ∉ t →
      normalizeText t = jsTrim (collapseWs t) := by
    intro t ha hb hc
    unfold normalizeText
    rw [stripCdata_id t hb hc, decodeEntities_id t ha, stripTags_id t hb]
  rw [norm_clean s h1 h2 h3]
  set s' := jsTrim (collapseWs s) with hs'
  have hmem : ∀ c, c ∈ s' → c = ' ' ∨ (c ∈ s ∧ isJsWs c = false) := by
    intro c hc
    exact mem_collapseGo c false s (mem_jsTrim _ _ hc)
  have hclean : ∀ c : Char, c ∈ s' → c ≠ '&' ∧ c ≠ '<' ∧ c ≠ '>' := by
    intro c hc
    rcases hmem c hc with rfl | ⟨hcs, _⟩
    · exact ⟨by decide, by decide, by decide⟩
    · exact ⟨fun e => h1 (e ▸ hcs), fun e => h2 (e ▸ hcs), fun e => h3 (e ▸ hcs)⟩
  have h1' : '&' ∉ s' := fun h => (hclean _ h).1 rfl
  have h2' : '<' ∉ s' := fun h => (hclean _ h).2.1 rfl
  have h3' : '>' ∉ s' := fun h => (hclean _ h).2.2 rfl
  rw [norm_clean s' h1' h2' h3']
  have honly : ∀ c ∈ s', isJsWs c = true → c = ' ' := by
    intro c hc hw
    rcases hmem c hc with h | ⟨_, hf⟩
    · exact h
    · rw [hw] at hf; cases hf
  have hcol : List.Chain' wsR (collapseWs s) := chain_collapseGo false s
  have hchain : List.Chain' wsR s' := by
    rw [hs']
    unfold jsTrim
    exact chain'_of_isPrefix (chain'_of_suffix hcol (List.dropWhile_suffix _))
      (dropWhileEnd_isPrefix _ _)
  rw [show collapseWs s' = s' from (collapseGo_id s' honly hchain).1]
  rw [hs', jsTrim_idem]

/-- Witness for the amended C5 statement at a concrete clean string. -/
theorem c5_normalize_idempotent_witness :
    normalizeText (normalizeText (cs "  plain   text ")) =
      normalizeText (cs "  plain   text ") :=
  c5_normalize_idempotent_on_clean (cs "  plain   text ")
    (by decide) (by decide) (by decide)

/-! ### Bucket output pipeline (claims C1, C2, C3) -/

theorem mem_filteredPool (items : List RawItem) (x : RawItem) :
    x ∈ filteredPool items ↔
      x ∈ items ∧ (x.url ≠ [] ∧ x.title ≠ []) ∧
        matchesKeywords (searchTextOf x) = true := by
  unfold filteredPool
  simp only [List.mem_filter, decide_eq_true_eq]
  tauto

theorem mem_dedupByUrl (nowIso : Str) :
    ∀ (seen : List Str) (l : List RawItem) (y : Item),
      y ∈ dedupByUrl nowIso seen l → ∃ x ∈ l, y = mkItem nowIso x := by
  intro seen l
  induction l generalizing seen with
  | nil => intro y h; cases h
  | cons x rest ih =>
    intro y h
    by_cases hx : x.url ∈ seen
    · rw [show dedupByUrl nowIso seen (x :: rest) = dedupByUrl nowIso seen rest by
        simp [dedupByUrl, hx]] at h
      obtain ⟨z, hz, he⟩ := ih seen y h
      exact ⟨z, List.mem_cons_of_mem _ hz, he⟩
    · rw [show dedupByUrl nowIso seen (x :: rest) =
          mkItem nowIso x :: dedupByUrl nowIso (x.url :: seen) rest by
        simp [dedupByUrl, hx]] at h
      rcases List.mem_cons.mp h with he | h'
      · exact ⟨x, List.mem_cons_self _ _, he⟩
      · obtain ⟨z, hz, he⟩ := ih _ y h'
        exact ⟨z, List.mem_cons_of_mem _ hz, he⟩

/-- C1: for every candidate pool carrying the extractor invariants
(each candidate's `url` is empty or a validated `http(s)://` URL — the
range of `safeUrl`; its `publishedAt` is empty or parseable — the range
of `parseDateToIso`; its source name is non-empty), and a parseable
run instant, every item of the bucket output has a non-empty title, a
URL matching `^https?://`, a non-empty source name, and a `publishedAt`
that parses as a valid instant. -/
theorem c1_output_validity (P : Str → Option Int) (nowIso : Str)
    (pool : List RawItem)
    (hGood : ∀ x ∈ pool, (x.url = [] ∨ isHttpUrl x.url = true) ∧
      (x.publishedAt = [] ∨ (P x.publishedAt).isSome = true) ∧ x.source ≠ [])
    (hNow : (P nowIso).isSome = true) :
    ∀ y ∈ normalizeAndFilter P nowIso pool,
      y.title ≠ [] ∧ isHttpUrl y.url = true ∧ y.source ≠ [] ∧
        (P y.publishedAt).isSome = true := by
  intro y hy
  have hy1 : y ∈ sortedDedup P nowIso pool := List.mem_of_mem_take hy
  have hy2 : y ∈ dedupByUrl nowIso [] (filteredPool pool) :=
    (List.mergeSort_perm _ _).mem_iff.mp hy1
  obtain ⟨x, hxl, rfl⟩ := mem_dedupByUrl nowIso [] (filteredPool pool) y hy2
  obtain ⟨hxp, ⟨hurl, htitle⟩, _⟩ := (mem_filteredPool pool x).mp hxl
  obtain ⟨hu, hp, hsrc⟩ := hGood x hxp
  refine ⟨htitle, ?_, hsrc, ?_⟩
  · rcases hu with h | h
    · exact absurd h hurl
    · exact h
  · show (P (if x.publishedAt ≠ [] then x.publishedAt else nowIso)).isSome = true
    by_cases hpa : x.publishedAt ≠ []
    · rw [if_pos hpa]
      rcases hp with h | h
      · exact absurd h hpa
      · exact h
    · rw [if_neg hpa]
      exact hNow

/-- Witness for C1 at a concrete pool and date model: the one produced
item satisfies all four output invariants. -/
theorem c1_output_validity_witness :
    (mkItem (cs "NOW")
        ⟨cs "temu", cs "Src", cs "http://a.example/x", cs "T1", cs "temu"⟩).title
        ≠ [] ∧
    isHttpUrl (mkItem (cs "NOW")
        ⟨cs "temu", cs "Src", cs "http://a.example/x", cs "T1", cs "temu"⟩).url
        = true ∧
    (mkItem (cs "NOW")
        ⟨cs "temu", cs "Src", cs "http://a.example/x", cs "T1", cs "temu"⟩).source
        ≠ [] ∧
    (if (mkItem (cs "NOW")
          ⟨cs "temu", cs "Src", cs "http://a.example/x", cs "T1", cs "temu"⟩).publishedAt
          = cs "T1" ∨
        (mkItem (cs "NOW")
          ⟨cs "temu", cs "Src", cs "http://a.example/x", cs "T1", cs "temu"⟩).publishedAt
          = cs "NOW" then some (1 : Int) else none).isSome = true := by
  have h := c1_output_validity
    (fun s => if s = cs "T1" ∨ s = cs "NOW" then some 1 else none)
    (cs "NOW")
    [⟨cs "temu", cs "Src", cs "http://a.example/x", cs "T1", cs "temu"⟩]
    (by decide) (by decide)
  apply h
  have hf : filteredPool
      [⟨cs "temu", cs "Src", cs "http://a.example/x", cs "T1", cs "temu"⟩] =
      [⟨cs "temu", cs "Src", cs "http://a.example/x", cs "T1", cs "temu"⟩] := by
    decide
  have hd : dedupByUrl (cs "NOW") []
      [⟨cs "temu", cs "Src", cs "http://a.example/x", cs "T1", cs "temu"⟩] =
      [mkItem (cs "NOW")
        ⟨cs "temu", cs "Src", cs "http://a.example/x", cs "T1", cs "temu"⟩] := by
    decide
  unfold normalizeAndFilter sortedDedup
  rw [hf, hd, List.mergeSort_singleton]
  exact List.mem_cons_self _ _

theorem itemLe_trans (P : Str → Option Int) (a b c : Item)
    (h1 : itemLe P a b = true) (h2 : itemLe P b c = true) :
    itemLe P a c = true := by
  simp only [itemLe, decide_eq_true_eq] at *
  exact le_trans h2 h1

theorem itemLe_total (P : Str → Option Int) (a b : Item) :
    (itemLe P a b || itemLe P b a) = true := by
  simp only [itemLe, Bool.or_eq_true, decide_eq_true_eq]
  exact le_total _ _

theorem sortedDedup_pairwise (P : Str → Option Int) (nowIso : Str)
    (pool : List RawItem) :
    (sortedDedup P nowIso pool).Pairwise
      (fun a b => sortKey P b ≤ sortKey P a) := by
  have hs := @List.sorted_mergeSort Item (itemLe P)
    (fun a b c => itemLe_trans P a b c)
    (fun a b => itemLe_total P a b)
    (dedupByUrl nowIso [] (filteredPool pool))
  exact hs.imp (fun h => by simpa [itemLe, decide_eq_true_eq] using h)

theorem dedup_total (nowIso : Str) :
    ∀ (seen : List Str) (l : List RawItem),
      (∀ x ∈ l, x.url ∉ seen) → (l.map RawItem.url).Nodup →
      dedupByUrl nowIso seen l = l.map (mkItem nowIso) := by
  intro seen l
  induction l generalizing seen with
  | nil => intro _ _; rfl
  | cons x rest ih =>
    intro hdisj hnd
    have hx : x.url ∉ seen := hdisj x (List.mem_cons_self _ _)
    rw [show dedupByUrl nowIso seen (x :: rest) =
        mkItem nowIso x :: dedupByUrl nowIso (x.url :: seen) rest by
      simp [dedupByUrl, hx]]
    rw [List.map_cons] at hnd
    have hnd' := List.nodup_cons.mp hnd
    rw [ih (x.url :: seen) ?_ hnd'.2]
    · rfl
    · intro z hz
      rw [List.mem_cons]
      rintro (he | hs)
      · exact hnd'.1 (he ▸ List.mem_map_of_mem RawItem.url hz)
      · exact hdisj z (List.mem_cons_of_mem _ hz) hs

/-- C2: the bucket output is capped at `MAX_ITEMS_PER_BUCKET` (80) and
sorted by resolved `publishedAt` timestamp non-increasing; and when 90
candidates with non-empty titles, relevant search text and pairwise
distinct non-empty URLs are pooled, the output has length exactly 80
and contains the 80 most recent (every kept item's key is at least
every dropped item's key). -/
theorem c2_cap_sorted_recent :
    (∀ (P : Str → Option Int) (nowIso : Str) (pool : List RawItem),
      (normalizeAndFilter P nowIso pool).length ≤ MAX_ITEMS_PER_BUCKET ∧
      (normalizeAndFilter P nowIso pool).Pairwise
        (fun a b => sortKey P b ≤ sortKey P a)) ∧
    (∀ (P : Str → Option Int) (nowIso : Str) (pool : List RawItem),
      pool.length = 90 →
      (∀ x ∈ pool, x.title ≠ [] ∧ x.url ≠ [] ∧
        matchesKeywords (searchTextOf x) = true) →
      (pool.map RawItem.url).Nodup →
      (normalizeAndFilter P nowIso pool).length = 80 ∧
      ∀ a ∈ normalizeAndFilter P nowIso pool,
        ∀ b ∈ (sortedDedup P nowIso pool).drop MAX_ITEMS_PER_BUCKET,
          sortKey P b ≤ sortKey P a) := by
  constructor
  · intro P nowIso pool
    constructor
    · rw [normalizeAndFilter, List.length_take]
      exact inf_le_left
    · exact (sortedDedup_pairwise P nowIso pool).sublist
        (List.take_sublist _ _)
  · intro P nowIso pool hlen hgood hnodup
    have hfil : filteredPool pool = pool := by
      have hinner : pool.filter (fun x => decide (x.url ≠ [] ∧ x.title ≠ [])) =
          pool :=
        List.filter_eq_self.mpr (fun a ha => by
          simp only [decide_eq_true_eq]
          exact ⟨(hgood a ha).2.1, (hgood a ha).1⟩)
      have houter : pool.filter (fun x => matchesKeywords (searchTextOf x)) =
          pool :=
        List.filter_eq_self.mpr (fun a ha => (hgood a ha).2.2)
      unfold filteredPool
      rw [hinner, houter]
    have hded : dedupByUrl nowIso [] (filteredPool pool) =
        pool.map (mkItem nowIso) := by
      rw [hfil]
      exact dedup_total nowIso [] pool (fun x _ => List.not_mem_nil x.url) hnodup
    have hslen : (sortedDedup P nowIso pool).length = 90 := by
      rw [sortedDedup, (List.mergeSort_perm _ _).length_eq, hded,
        List.length_map, hlen]
    constructor
    · rw [normalizeAndFilter, List.length_take, hslen]
      rfl
    · intro a ha b hb
      have hpair := sortedDedup_pairwise P nowIso pool
      rw [← List.take_append_drop MAX_ITEMS_PER_BUCKET
        (sortedDedup P nowIso pool)] at hpair
      exact (List.pairwise_append.mp hpair).2.2 a ha b hb

/-- Witness for C2's 90-candidate scenario at a concrete pool of 90
relevant, unique-URL candidates: the output length is exactly 80. -/
theorem c2_cap_sorted_recent_witness :
    (normalizeAndFilter (fun _ => some 0) (cs "NOW")
      ((List.range 90).map (fun i =>
        ⟨cs "temu", cs "S", 'h' :: 't' :: 't' :: 'p' :: ':' :: '/' :: '/' ::
          Nat.toDigits 10 i, cs "D", cs "temu"⟩))).length = 80 :=
  (c2_cap_sorted_recent.2 (fun _ => some 0) (cs "NOW")
    ((List.range 90).map (fun i =>
      ⟨cs "temu", cs "S", 'h' :: 't' :: 't' :: 'p' :: ':' :: '/' :: '/' ::
        Nat.toDigits 10 i, cs "D", cs "temu"⟩))
    (by decide) (by decide) (by decide)).1

theorem dedup_nodup (nowIso : Str) :
    ∀ (seen : List Str) (l : List RawItem),
      ((dedupByUrl nowIso seen l).map Item.url).Nodup ∧
      ∀ u ∈ (dedupByUrl nowIso seen l).map Item.url, u ∉ seen := by
  intro seen l
  induction l generalizing seen with
  | nil => exact ⟨List.nodup_nil, by simp [dedupByUrl]⟩
  | cons x rest ih =>
    by_cases hx : x.url ∈ seen
    · rw [show dedupByUrl nowIso seen (x :: rest) = dedupByUrl nowIso seen rest by
        simp [dedupByUrl, hx]]
      exact ih seen
    · rw [show dedupByUrl nowIso seen (x :: rest) =
          mkItem nowIso x :: dedupByUrl nowIso (x.url :: seen) rest by
        simp [dedupByUrl, hx]]
      rw [List.map_cons]
      have ih' := ih (x.url :: seen)
      constructor
      · rw [List.nodup_cons]
        refine ⟨fun hmem => ?_, ih'.1⟩
        exact ih'.2 _ hmem (List.mem_cons_self _ _)
      · intro u hu
        rcases List.mem_cons.mp hu with rfl | hu'
        · exact hx
        · exact fun hs => ih'.2 u hu' (List.mem_cons_of_mem _ hs)

theorem dedup_find (nowIso : Str) :
    ∀ (seen : List Str) (l : List RawItem) (y : Item),
      y ∈ dedupByUrl nowIso seen l →
      y.url ∉ seen ∧ ∃ x, l.find? (fun z => decide (z.url = y.url)) = some x ∧
        y = mkItem nowIso x := by
  intro seen l
  induction l generalizing seen with
  | nil => intro y h; cases h
  | cons x rest ih =>
    intro y h
    by_cases hx : x.url ∈ seen
    · rw [show dedupByUrl nowIso seen (x :: rest) = dedupByUrl nowIso seen rest by
        simp [dedupByUrl, hx]] at h
      obtain ⟨hns, x', hfind, he⟩ := ih seen y h
      have hne : ¬(fun z => decide (z.url = y.url)) x = true := by
        simp only [decide_eq_true_eq]
        exact fun e => hns (e ▸ hx)
      exact ⟨hns, x', by
        rw [@List.find?_cons_of_neg _ (fun z => decide (z.url = y.url)) x rest hne]
        exact hfind, he⟩
    · rw [show dedupByUrl nowIso seen (x :: rest) =
          mkItem nowIso x :: dedupByUrl nowIso (x.url :: seen) rest by
        simp [dedupByUrl, hx]] at h
      rcases List.mem_cons.mp h with he | h'
      · have hyu : y.url = x.url := by rw [he]; exact rfl
        refine ⟨by rw [hyu]; exact hx, x, ?_, he⟩
        have hpos : (fun z => decide (z.url = y.url)) x = true := by
          simp only [decide_eq_true_eq]
          exact hyu.symm
        rw [@List.find?_cons_of_pos _ (fun z => decide (z.url = y.url)) x rest hpos]
      · obtain ⟨hns, x', hfind, he⟩ := ih (x.url :: seen) y h'
        have hne2 : y.url ≠ x.url := fun e => hns (by rw [e]; exact List.mem_cons_self _ _)
        have hne : ¬(fun z => decide (z.url = y.url)) x = true := by
          simp only [decide_eq_true_eq]
          exact fun e => hne2 e.symm
        refine ⟨fun hs => hns (List.mem_cons_of_mem _ hs), x', ?_, he⟩
        rw [@List.find?_cons_of_neg _ (fun z => decide (z.url = y.url)) x rest hne]
        exact hfind

/-- C3: no two items of a bucket output share a URL, and every output
item is the projection of the first candidate (in pool order, after
filtering) bearing its URL — dedup keeps the first occurrence, not the
most recent one. -/
theorem c3_dedup_first_occurrence (P : Str → Option Int) (nowIso : Str)
    (pool : List RawItem) :
    ((normalizeAndFilter P nowIso pool).map Item.url).Nodup ∧
    ∀ y ∈ normalizeAndFilter P nowIso pool,
      ∃ x, (filteredPool pool).find? (fun z => decide (z.url = y.url)) = some x ∧
        y = mkItem nowIso x := by
  constructor
  · have hd := (dedup_nodup nowIso [] (filteredPool pool)).1
    have hperm : ((sortedDedup P nowIso pool).map Item.url).Perm
        ((dedupByUrl nowIso [] (filteredPool pool)).map Item.url) :=
      (List.mergeSort_perm _ _).map Item.url
    have hs : ((normalizeAndFilter P nowIso pool).map Item.url).Sublist
        ((sortedDedup P nowIso pool).map Item.url) :=
      (List.take_sublist _ _).map Item.url
    exact hs.nodup (hperm.nodup_iff.mpr hd)
  · intro y hy
    have hy1 : y ∈ sortedDedup P nowIso pool := List.mem_of_mem_take hy
    have hy2 : y ∈ dedupByUrl nowIso [] (filteredPool pool) :=
      (List.mergeSort_perm _ _).mem_iff.mp hy1
    obtain ⟨_, x, hfind, he⟩ := dedup_find nowIso [] (filteredPool pool) y hy2
    exact ⟨x, hfind, he⟩

/-! ### Timestamp fallback (claim C6) -/

/-- C6: a candidate whose raw timestamp is empty or unparseable gets
`publishedAt` equal to the run's current instant (`parseDateToIso`
yields the empty string and the dedup-stage fallback substitutes
`nowIso`) — a total fallback, not an error; a parseable raw timestamp
is converted to its ISO form instead. -/
theorem c6_publishedAt_fallback (D : DateModel) (nowIso raw : Str) (x : RawItem)
    (hx : x.publishedAt = parseDateToIso D raw) :
    ((raw = [] ∨ D.parse raw = none) → (mkItem nowIso x).publishedAt = nowIso) ∧
    (∀ t : Int, raw ≠ [] → D.parse raw = some t → D.toIso t ≠ [] →
      (mkItem nowIso x).publishedAt = D.toIso t) := by
  constructor
  · intro h
    have hemp : x.publishedAt = [] := by
      rw [hx]; unfold parseDateToIso
      rcases h with h | h
      · rw [if_pos h]
      · by_cases hr : raw = []
        · rw [if_pos hr]
        · rw [if_neg hr, h]
    show (if x.publishedAt ≠ [] then x.publishedAt else nowIso) = nowIso
    rw [if_neg (by simp [hemp])]
  · intro t hr hp hne
    have hiso : x.publishedAt = D.toIso t := by
      rw [hx]; unfold parseDateToIso; rw [if_neg hr, hp]
    show (if x.publishedAt ≠ [] then x.publishedAt else nowIso) = D.toIso t
    rw [if_pos (by rw [hiso]; exact hne), hiso]

/-- Witness for C6 with a date model that parses nothing, at the raw
timestamp "not-a-date". -/
theorem c6_publishedAt_fallback_witness :
    (mkItem (cs "2026-01-01T00:00:00.000Z")
        ⟨cs "t", cs "s", cs "http://a/b",
          parseDateToIso ⟨fun _ => none, fun _ => cs "x"⟩ (cs "not-a-date"),
          cs "q"⟩).publishedAt = cs "2026-01-01T00:00:00.000Z" :=
  (c6_publishedAt_fallback ⟨fun _ => none, fun _ => cs "x"⟩ _ (cs "not-a-date") _
    rfl).1 (Or.inr rfl)

/-! ### Fetch-failure isolation (claim C7) -/

theorem bucketPool_append (D : DateModel) (H : Str → Option Str)
    (fetch : Str → Option Str) (l1 l2 : List FeedEntry) :
    bucketPool D H fetch (l1 ++ l2) =
      bucketPool D H fetch l1 ++ bucketPool D H fetch l2 := by
  induction l1 with
  | nil => rfl
  | cons e rest ih =>
    cases hre : resolveFeedUrl e with
    | none => simp [bucketPool, hre, ih]
    | some u => cases hf : fetch u <;> simp [bucketPool, hre, hf, ih]

/-- C7: when the fetch of one resolvable source fails (network error,
non-2xx status or timeout, all modelled by `fetch u = none`), the
bucket output is exactly what it would be without that source — every
other source's items still reach the bucket output, and the failure
never aborts the bucket. -/
theorem c7_fetch_failure_isolated (D : DateModel) (H : Str → Option Str)
    (fetch : Str → Option Str) (nowIso : Str) (pre post : List FeedEntry)
    (e : FeedEntry) (u : Str) (hu : resolveFeedUrl e = some u)
    (hf : fetch u = none) :
    aggregateBucket D H fetch nowIso (pre ++ e :: post) =
      aggregateBucket D H fetch nowIso (pre ++ post) := by
  unfold aggregateBucket
  congr 1
  rw [bucketPool_append, bucketPool_append]
  congr 1
  show bucketPool D H fetch (e :: post) = bucketPool D H fetch post
  simp [bucketPool, hu, hf]

/-- Witness for C7: one healthy source, one failing source. -/
theorem c7_fetch_failure_isolated_witness :
    aggregateBucket ⟨fun _ => none, fun _ => []⟩ (fun _ => none)
        (fun u => if u = cs "http://bad" then none else some [])
        (cs "NOW")
        ([FeedEntry.strE (cs "http://ok")] ++ FeedEntry.strE (cs "http://bad") :: []) =
      aggregateBucket ⟨fun _ => none, fun _ => []⟩ (fun _ => none)
        (fun u => if u = cs "http://bad" then none else some [])
        (cs "NOW")
        ([FeedEntry.strE (cs "http://ok")] ++ []) :=
  c7_fetch_failure_isolated _ _ _ _ _ _ _ (cs "http://bad") (by decide) (by decide)

/-! ### Feed-format detection (claim C8) -/

/-- C8: `parseFeed` treats the content as RSS when it contains an
`<rss` or `<channel` marker; otherwise as Atom when it contains both a
`<feed` and an `<entry` marker; otherwise it attempts both extractions
and returns whichever yields more candidates, ties favouring RSS. -/
theorem c8_parseFeed_detection (D : DateModel) (H : Str → Option Str)
    (xml url : Str) :
    ((hasTagOpen (cs "rss") xml = true ∨ hasTagOpen (cs "channel") xml = true) →
      parseFeed D H xml url = parseRssItems D H xml url) ∧
    (¬(hasTagOpen (cs "rss") xml = true ∨ hasTagOpen (cs "channel") xml = true) →
      hasTagOpen (cs "feed") xml = true → hasTagOpen (cs "entry") xml = true →
      parseFeed D H xml url = parseAtomEntries D H xml url) ∧
    (¬(hasTagOpen (cs "rss") xml = true ∨ hasTagOpen (cs "channel") xml = true) →
      ¬(hasTagOpen (cs "feed") xml = true ∧ hasTagOpen (cs "entry") xml = true) →
      ((parseAtomEntries D H xml url).length ≤ (parseRssItems D H xml url).length →
        parseFeed D H xml url = parseRssItems D H xml url) ∧
      ((parseRssItems D H xml url).length < (parseAtomEntries D H xml url).length →
        parseFeed D H xml url = parseAtomEntries D H xml url)) := by
  unfold parseFeed
  refine ⟨?_, ?_, ?_⟩
  · intro h
    have hr : (hasTagOpen (cs "rss") xml || hasTagOpen (cs "channel") xml) = true := by
      rcases h with h | h <;> simp [h]
    simp [hr]
  · intro h hf he
    have hr : (hasTagOpen (cs "rss") xml || hasTagOpen (cs "channel") xml) = false := by
      cases hA : hasTagOpen (cs "rss") xml <;>
        cases hB : hasTagOpen (cs "channel") xml <;> simp_all
    simp [hr, hf, he]
  · intro h1 h2
    have hr : (hasTagOpen (cs "rss") xml || hasTagOpen (cs "channel") xml) = false := by
      cases hA : hasTagOpen (cs "rss") xml <;>
        cases hB : hasTagOpen (cs "channel") xml <;> simp_all
    have ha : (hasTagOpen (cs "feed") xml && hasTagOpen (cs "entry") xml) = false := by
      cases hA : hasTagOpen (cs "feed") xml <;>
        cases hB : hasTagOpen (cs "entry") xml <;> simp_all
    constructor
    · intro hlen
      simp [hr, ha, hlen]
    · intro hlen
      simp [hr, ha, Nat.not_le.mpr hlen]

/-- Witness for C8 at a concrete RSS document. -/
theorem c8_parseFeed_detection_witness :
    parseFeed ⟨fun _ => none, fun _ => []⟩ (fun _ => none)
        (cs "<rss><item><title>x</title></item></rss>") (cs "u") =
      parseRssItems ⟨fun _ => none, fun _ => []⟩ (fun _ => none)
        (cs "<rss><item><title>x</title></item></rss>") (cs "u") :=
  (c8_parseFeed_detection _ _ _ _).1 (Or.inl (by decide))

/-! ### Feed-entry acceptance (claim C9) -/

/-- C9 counterexample: an object entry that supplies its URL in a `url`
field (and has no `rss` field) is skipped — `aggregateBucket` reads
`item?.rss` — even though the fetch would deliver a relevant RSS item
for that URL; the same entry with the URL under `rss` contributes one
candidate. -/
theorem c9_counterexample :
    bucketPool ⟨fun _ => none, fun _ => []⟩ (fun _ => some (cs "h"))
        (fun _ => some
          (cs "<rss><item><title>temu</title><link>http://a.b/c</link></item></rss>"))
        [FeedEntry.objE none (some (cs "http://feed.example/rss")) none] = [] ∧
    (bucketPool ⟨fun _ => none, fun _ => []⟩ (fun _ => some (cs "h"))
        (fun _ => some
          (cs "<rss><item><title>temu</title><link>http://a.b/c</link></item></rss>"))
        [FeedEntry.objE (some (cs "http://feed.example/rss")) none none]).length
      = 1 := by
  constructor
  · rfl
  · decide

/-- C9 (amended): a feed entry is accepted either as a bare non-empty
URL string or as an object whose required `rss` field (not `url`)
supplies the feed URL; the `topic` field never affects the output; an
entry from which no URL can be obtained is skipped and the rest of the
bucket is still processed. -/
theorem c9_feed_entry_resolution (D : DateModel) (H : Str → Option Str)
    (fetch : Str → Option Str) (nowIso : Str) :
    (∀ s : Str, s ≠ [] → resolveFeedUrl (FeedEntry.strE s) = some s) ∧
    (∀ (r : Str) (u t : Option Str), r ≠ [] →
      resolveFeedUrl (FeedEntry.objE (some r) u t) = some r) ∧
    (∀ u t : Option Str, resolveFeedUrl (FeedEntry.objE none u t) = none) ∧
    (∀ (pre post : List FeedEntry) (e : FeedEntry), resolveFeedUrl e = none →
      aggregateBucket D H fetch nowIso (pre ++ e :: post) =
        aggregateBucket D H fetch nowIso (pre ++ post)) ∧
    (∀ (pre post : List FeedEntry) (r u t t' : Option Str),
      aggregateBucket D H fetch nowIso (pre ++ FeedEntry.objE r u t :: post) =
        aggregateBucket D H fetch nowIso (pre ++ FeedEntry.objE r u t' :: post)) := by
  refine ⟨?_, ?_, ?_, ?_, ?_⟩
  · intro s hs
    simp [resolveFeedUrl, hs]
  · intro r u t hr
    simp [resolveFeedUrl, hr]
  · intro u t
    rfl
  · intro pre post e he
    unfold aggregateBucket
    congr 1
    rw [bucketPool_append, bucketPool_append]
    congr 1
    show bucketPool D H fetch (e :: post) = bucketPool D H fetch post
    simp [bucketPool, he]
  · intro pre post r u t t'
    unfold aggregateBucket
    congr 1
    rw [bucketPool_append, bucketPool_append]
    congr 1

/-- Witness for C9 (amended): skipping an unresolvable object entry. -/
theorem c9_feed_entry_resolution_witness :
    aggregateBucket ⟨fun _ => none, fun _ => []⟩ (fun _ => none) (fun _ => none)
        (cs "NOW") ([] ++ FeedEntry.objE none (some (cs "http://x")) none :: []) =
      aggregateBucket ⟨fun _ => none, fun _ => []⟩ (fun _ => none) (fun _ => none)
        (cs "NOW") ([] ++ []) :=
  (c9_feed_entry_resolution _ _ _ _).2.2.2.1 [] [] _ rfl

/-- Witness for C3 at a concrete pool with a duplicated URL: the output
URLs are pairwise distinct. -/
theorem c3_dedup_first_occurrence_witness :
    ((normalizeAndFilter (fun _ => some 0) (cs "N")
        [⟨cs "temu first", cs "S", cs "http://a", cs "", cs "temu"⟩,
         ⟨cs "temu second", cs "S", cs "http://a", cs "", cs "temu"⟩]).map
      Item.url).Nodup :=
  (c3_dedup_first_occurrence (fun _ => some 0) (cs "N")
    [⟨cs "temu first", cs "S", cs "http://a", cs "", cs "temu"⟩,
     ⟨cs "temu second", cs "S", cs "http://a", cs "", cs "temu"⟩]).1
